import Mathlib

/-!
Shallow embedding of the wallet service (`services/walletService.ts`) of the
ybank.me wallet repository, centred on the transaction-history reconstructor
`getRecentTransactions`, plus the two balance getters.

The external ledger read-API (an ethers `JsonRpcProvider` + ERC-20 `Contract`)
is modelled as an environment record `Chain` whose fields give, for each
request the code can issue, either a successful answer or a failure
(`Except String _` models a rejected promise / thrown exception).  The code
itself is embedded as total Lean functions over that environment.

JavaScript numbers appearing here (block numbers, log indices, raw token
amounts, timestamps) are all non-negative integers in the source, so they are
modelled as `Nat`; `Math.max(0, currentBlock - SCAN_RANGE)` coincides with
truncated `Nat` subtraction.  Strings are modelled as Lean `String`.
-/

/-- A decoded `Transfer` event log as delivered by `contract.queryFilter`:
`transactionHash`, `index` (position of the log inside the transaction),
`blockNumber`, and the event arguments `args[0] = from`, `args[1] = to`,
`args[2] = value` (raw integer amount). -/
structure EventLog where
  transactionHash : String
  index : Nat
  blockNumber : Nat
  argFrom : String
  argTo : String
  argValue : Nat
deriving DecidableEq, Repr

/-- A block as returned by `provider.getBlock`: only the `timestamp` field
(seconds since epoch) is consumed by the code. -/
structure Block where
  timestamp : Nat
deriving DecidableEq, Repr

/-- The two event filters built by the code:
`contract.filters.Transfer(null, address)` (account is recipient) and
`contract.filters.Transfer(address, null)` (account is sender). -/
inductive XferFilter where
  | incoming (address : String)
  | outgoing (address : String)
deriving DecidableEq, Repr

/-- One behaviour of the external read-API, fixed for a single invocation:
every request the code can make is answered deterministically, either with a
value or with a failure.  `now` is the value `Date.now()` returns during the
call. -/
structure Chain where
  blockNumber : Except String Nat
  queryFilter : XferFilter → Nat → Nat → Except String (List EventLog)
  getBlock : Nat → Except String (Option Block)
  getBalance : String → Except String Nat
  balanceOf : String → Except String Nat
  now : Nat

/-- The UI-facing record (`Transaction` in `types.ts`): `hash`, `type`
(`"in"` or `"out"`), decimal `amount` string, `timestamp` in ms, `status`,
and the counterparty addresses. -/
structure Transaction where
  hash : String
  type : String
  amount : String
  timestamp : Nat
  status : String
  fromAddr : String
  toAddr : String
deriving DecidableEq, Repr

/-- The constant `SCAN_RANGE = 7500`. -/
def SCAN_RANGE : Nat := 7500

/-- The constant `CHUNK_SIZE = 2500`. -/
def CHUNK_SIZE : Nat := 2500

/-- Decimal digit characters, as produced by JavaScript number-to-string
conversion of a natural number (`BigInt.prototype.toString` /
`Number.prototype.toString`): most significant digit first.  `fuel`-driven so
that it is structural and computes in the kernel; `natToStr` supplies enough
fuel. -/
def natDigitsAux : Nat → Nat → List Char
  | 0, _ => []
  | _fuel + 1, n =>
    if n < 10 then [Nat.digitChar n]
    else natDigitsAux _fuel (n / 10) ++ [Nat.digitChar (n % 10)]

/-- JavaScript decimal rendering of a natural number, e.g. `5000000 ↦
"5000000"`. -/
def natDigits (n : Nat) : List Char := natDigitsAux (n + 1) n

/-- String form of `natDigits`. -/
def natToStr (n : Nat) : String := String.mk (natDigits n)

/-- Left-pad a digit list with `'0'` up to length `w` (the
`while (fraction.length < decimals) fraction = "0" + fraction` loop of
`formatUnits`). -/
def padLeftZeros (w : Nat) (l : List Char) : List Char :=
  List.replicate (w - l.length) '0' ++ l

/-- Drop trailing `'0'` characters; an all-zero list collapses to `['0']`
(the `fraction.match(...)` trimming step of `formatUnits`, which keeps the
longest prefix ending in a nonzero digit, or `"0"`). -/
def trimTrailingZeros (l : List Char) : List Char :=
  let t := (l.reverse.dropWhile (fun c => c = '0')).reverse
  if t = [] then ['0'] else t

/-- The rendering `ethers.formatUnits(value, decimals)` of a non-negative integer: integer
part, a dot, then the `decimals`-digit fraction with trailing zeros trimmed
(at least one fractional digit kept).  E.g. `formatUnits 5000000 6 = "5.0"`. -/
def formatUnits (value : Nat) (decimals : Nat) : String :=
  String.mk (natDigits (value / 10 ^ decimals)
    ++ '.' :: trimTrailingZeros (padLeftZeros decimals (natDigits (value % 10 ^ decimals))))

/-- Numeric value of a digit list, most significant first. -/
def digitsVal (l : List Char) : Nat :=
  l.foldl (fun a c => a * 10 + (c.toNat - 48)) 0

/-- Exact rational value of a decimal string of the shape produced by
`formatUnits` (`"<digits>.<digits>"`): the digits before the first dot are
the integer part, the digits after it the fraction.  JavaScript's
`parseFloat` applied to such a string is positive exactly when this rational
is positive, so the code's `parseFloat(tx.amount) > 0` test is embedded as
`0 < parseDecQ tx.amount`. -/
def parseDecQ (s : String) : ℚ :=
  let intPart := s.data.takeWhile (fun c => c ≠ '.')
  let fracPart := (s.data.dropWhile (fun c => c ≠ '.')).tail
  mkRat (digitsVal intPart * 10 ^ fracPart.length + digitsVal fracPart) (10 ^ fracPart.length)

/-- The sub-range list built by the loop
`for (let i = fromBlock; i < currentBlock; i += CHUNK_SIZE)
   ranges.push({from: i, to: Math.min(i + CHUNK_SIZE - 1, currentBlock)})`,
fuel-driven (each iteration consumes one unit; `mkRanges` supplies enough). -/
def mkRangesAux : Nat → Nat → Nat → List (Nat × Nat)
  | 0, _, _ => []
  | _fuel + 1, i, currentBlock =>
    if i < currentBlock then
      (i, min (i + CHUNK_SIZE - 1) currentBlock) :: mkRangesAux _fuel (i + CHUNK_SIZE) currentBlock
    else []

/-- The list of `(from, to)` block sub-ranges queried for one filter. -/
def mkRanges (fromBlock currentBlock : Nat) : List (Nat × Nat) :=
  mkRangesAux (currentBlock + 1) fromBlock currentBlock

/-- One sub-range request with its local failure handler:
`contract.queryFilter(filter, range.from, range.to).catch(e => ... return [])`. -/
def chunkResult (env : Chain) (f : XferFilter) (r : Nat × Nat) : List EventLog :=
  match env.queryFilter f r.1 r.2 with
  | Except.ok logs => logs
  | Except.error _ => []

/-- The helper `fetchLogsChunked`: all sub-range results for one filter, concatenated in
sub-range order.  (The source issues them in batches of 3 via `Promise.all`,
which preserves positional order, so the merged list is exactly this
concatenation.) -/
def fetchLogsChunked (env : Chain) (f : XferFilter) (fromBlock currentBlock : Nat) :
    List EventLog :=
  (mkRanges fromBlock currentBlock).flatMap (chunkResult env f)

/-- JavaScript `String.prototype.toLowerCase`, modelled character-wise (the
addresses compared in the code are ASCII). -/
def toLowerStr (s : String) : String := String.mk (s.data.map Char.toLower)

/-- The deduplication key `` `${log.transactionHash}-${log.index}` ``. -/
def logKey (l : EventLog) : String :=
  l.transactionHash ++ "-" ++ natToStr l.index

/-- One `Map.prototype.set` step on an association list in insertion order:
an existing key keeps its position and gets the new value; a new key is
appended. -/
def mapSet (m : List (String × EventLog)) (k : String) (v : EventLog) :
    List (String × EventLog) :=
  if m.any (fun p => p.1 = k) then
    m.map (fun p => if p.1 = k then (k, v) else p)
  else m ++ [(k, v)]

/-- The `uniqueLogsMap` accumulated by `allLogs.forEach(log =>
uniqueLogsMap.set(key, log))`. -/
def uniqueLogsMap (logs : List EventLog) : List (String × EventLog) :=
  logs.foldl (fun m l => mapSet m (logKey l) l) []

/-- The list `Array.from(uniqueLogsMap.values())`: the deduplicated logs, in first-
insertion order of their keys, each key holding the last log seen for it. -/
def uniqueLogs (logs : List EventLog) : List EventLog :=
  (uniqueLogsMap logs).map Prod.snd

/-- The list `[...new Set(uniqueLogs.map(l => l.blockNumber))]`: distinct block
numbers in first-occurrence order. -/
def distinctBlockNumbers (logs : List EventLog) : List Nat :=
  logs.foldl (fun acc l => if l.blockNumber ∈ acc then acc else acc ++ [l.blockNumber]) []

/-- The `blockMap` built by the per-block `getBlock` loop: a successful
lookup returning a block records `timestamp * 1000`; a failure or a `null`
block records nothing (per-block `try/catch`). -/
def buildBlockMap (env : Chain) (bns : List Nat) : List (Nat × Nat) :=
  bns.foldl (fun m bn =>
    match env.getBlock bn with
    | Except.ok (some b) => m ++ [(bn, b.timestamp * 1000)]
    | _ => m) []

/-- The lookup `blockMap[log.blockNumber] || Date.now()`: a missing entry — and also a
present entry equal to `0`, since `0` is falsy in JavaScript — falls back to
`Date.now()`. -/
def resolveTimestamp (env : Chain) (bm : List (Nat × Nat)) (bn : Nat) : Nat :=
  match bm.lookup bn with
  | some t => if t ≠ 0 then t else env.now
  | none => env.now

/-- The per-log view-model construction inside `uniqueLogs.map(log => ...)`:
direction from a case-insensitive comparison of `args[1]` with the queried
address, amount via `formatUnits(log.args[2], 6)`, status `"confirmed"`. -/
def toTransaction (env : Chain) (address : String) (bm : List (Nat × Nat))
    (log : EventLog) : Transaction :=
  { hash := log.transactionHash
    type := if toLowerStr log.argTo = toLowerStr address then "in" else "out"
    amount := formatUnits log.argValue 6
    timestamp := resolveTimestamp env bm log.blockNumber
    status := "confirmed"
    fromAddr := log.argFrom
    toAddr := log.argTo }

/-- Stable insertion of a transaction into a timestamp-descending list: the
inserted element goes before the first strictly-older entry, i.e. after
nothing with an equal timestamp that was inserted before it. -/
def insertDesc (t : Transaction) : List Transaction → List Transaction
  | [] => [t]
  | h :: rest =>
    if h.timestamp ≤ t.timestamp then t :: h :: rest else h :: insertDesc t rest

/-- The sort `transactions.sort((a, b) => b.timestamp - a.timestamp)`:
`Array.prototype.sort` is stable, and a stable sort under a total preorder
has a unique result, realised here by stable insertion sort. -/
def sortDesc : List Transaction → List Transaction
  | [] => []
  | x :: xs => insertDesc x (sortDesc xs)

/-- The merge `const allLogs = [...logsIn, ...logsOut]`: the merged event list of both
filters, each fetched chunked over the same window. -/
def combinedLogs (env : Chain) (address : String) (currentBlock : Nat) : List EventLog :=
  fetchLogsChunked env (XferFilter.incoming address) (currentBlock - SCAN_RANGE) currentBlock
    ++ fetchLogsChunked env (XferFilter.outgoing address) (currentBlock - SCAN_RANGE) currentBlock

/-- The pipeline downstream of the merged log list: deduplicate, resolve
block timestamps, map to view models, drop zero amounts, sort descending by
timestamp. -/
def pipelineTail (env : Chain) (address : String) (logs : List EventLog) :
    List Transaction :=
  let uniq := uniqueLogs logs
  let bm := buildBlockMap env (distinctBlockNumbers uniq)
  sortDesc ((uniq.map (toTransaction env address bm)).filter
    (fun tx => decide (0 < parseDecQ tx.amount)))

/-- The `blockMap` as built inside one call, named as a stage of the
pipeline. -/
def blockMapOf (env : Chain) (address : String) (currentBlock : Nat) : List (Nat × Nat) :=
  buildBlockMap env (distinctBlockNumbers (uniqueLogs (combinedLogs env address currentBlock)))

/-- The body of `getRecentTransactions` after the head-block number is known:
fetch both filters chunked, concatenate, then run the downstream pipeline. -/
def recentTransactionsCore (env : Chain) (address : String) (currentBlock : Nat) :
    List Transaction :=
  pipelineTail env address (combinedLogs env address currentBlock)

/-- The entry point `getRecentTransactions`: the only await inside the outer `try` whose
failure is not handled locally is `provider.getBlockNumber()`; any such
exception reaches the top-level `catch`, which returns `[]`. -/
def getRecentTransactions (env : Chain) (address : String) : List Transaction :=
  match env.blockNumber with
  | Except.error _ => []
  | Except.ok currentBlock => recentTransactionsCore env address currentBlock

/-- The getter `getETHBalance`: format the balance with 18 decimals
(`ethers.formatEther`); any failure is caught and `"0.00"` returned. -/
def getETHBalance (env : Chain) (address : String) : String :=
  match env.getBalance address with
  | Except.ok bal => formatUnits bal 18
  | Except.error _ => "0.00"

/-- The getter `getUSDCBalance`: format the ERC-20 balance with the hardcoded 6
decimals; any failure is caught and `"0.00"` returned. -/
def getUSDCBalance (env : Chain) (address : String) : String :=
  match env.balanceOf address with
  | Except.ok bal => formatUnits bal 6
  | Except.error _ => "0.00"

/-- An environment identical to `env` except that one single sub-range
request `(f0, a0, b0)` is answered by `res` instead.  Used to compare a run
in which that sub-range fails with a run in which it succeeds with no
events. -/
def patchQuery (env : Chain) (f0 : XferFilter) (a0 b0 : Nat)
    (res : Except String (List EventLog)) : Chain :=
  { env with queryFilter := fun f a b =>
      if f = f0 ∧ a = a0 ∧ b = b0 then res else env.queryFilter f a b }

/-- The `Promise.all` reassembly: the per-sub-range results may be delivered (i.e.
completed) in any order, but the code reads each sub-range's result at its own
position, so the merged list concatenates the results in sub-range order,
looking each range up among the delivered pairs. -/
def assembleDelivered (ranges : List (Nat × Nat))
    (delivered : List ((Nat × Nat) × List EventLog)) : List EventLog :=
  ranges.flatMap (fun r => (delivered.lookup r).getD [])

/-- The canonical delivered data of one filter: each queried sub-range paired
with its (failure-handled) result. -/
def deliveredOf (env : Chain) (f : XferFilter) (fromBlock currentBlock : Nat) :
    List ((Nat × Nat) × List EventLog) :=
  (mkRanges fromBlock currentBlock).map (fun r => (r, chunkResult env f r))

/-- The reconstruction run on explicitly delivered per-sub-range results (in
an arbitrary completion order) instead of the canonical fetch. -/
def coreWithDelivered (env : Chain) (address : String) (currentBlock : Nat)
    (dIn dOut : List ((Nat × Nat) × List EventLog)) : List Transaction :=
  pipelineTail env address
    (assembleDelivered (mkRanges (currentBlock - SCAN_RANGE) currentBlock) dIn
      ++ assembleDelivered (mkRanges (currentBlock - SCAN_RANGE) currentBlock) dOut)

/-- A concrete inbound transfer event used in concrete runs: raw amount
5,000,000 of the 6-decimal asset, recipient differing from the queried
account only in letter case. -/
def logA : EventLog :=
  { transactionHash := "0xaaa"
    index := 1
    blockNumber := 50
    argFrom := "0xother"
    argTo := "0xME"
    argValue := 5000000 }

/-- A concrete healthy environment: head block 100, the recipient filter
returns `logA` in every sub-range, the sender filter returns nothing, every
block resolves to timestamp 1,700,000,000 s. -/
def demoEnv : Chain :=
  { blockNumber := Except.ok 100
    queryFilter := fun f _ _ =>
      match f with
      | XferFilter.incoming _ => Except.ok [logA]
      | XferFilter.outgoing _ => Except.ok []
    getBlock := fun _ => Except.ok (some { timestamp := 1700000000 })
    getBalance := fun _ => Except.error "network down"
    balanceOf := fun _ => Except.error "network down"
    now := 1234 }

/-- A concrete totally failing environment: every request fails. -/
def demoEnvFail : Chain :=
  { blockNumber := Except.error "no head"
    queryFilter := fun _ _ _ => Except.error "down"
    getBlock := fun _ => Except.error "down"
    getBalance := fun _ => Except.error "down"
    balanceOf := fun _ => Except.error "down"
    now := 1234 }

/-- A concrete mixed environment: head block 5,000 (so two
sub-ranges, `(0, 2499)` and `(2500, 4999)`), where the recipient filter
fails on the first sub-range and succeeds with `logA` on the second, and
block-detail lookups fail. -/
def demoEnvMixed : Chain :=
  { blockNumber := Except.ok 5000
    queryFilter := fun f a _ =>
      match f with
      | XferFilter.incoming _ =>
        if a = 0 then Except.error "range failed" else Except.ok [logA]
      | XferFilter.outgoing _ => Except.ok []
    getBlock := fun _ => Except.error "block fetch failed"
    getBalance := fun _ => Except.error "down"
    balanceOf := fun _ => Except.error "down"
    now := 999 }

/-- A concrete self-transfer event: sender and recipient both equal the
queried account, so both filters deliver it with the same
(transaction identifier, event position). -/
def selfLog : EventLog :=
  { transactionHash := "0xself"
    index := 7
    blockNumber := 60
    argFrom := "0xme"
    argTo := "0xme"
    argValue := 2500000 }

/-- A concrete environment in which both the recipient filter and the sender
filter deliver the same self-transfer event. -/
def selfEnv : Chain :=
  { blockNumber := Except.ok 100
    queryFilter := fun _ _ _ => Except.ok [selfLog]
    getBlock := fun _ => Except.ok (some { timestamp := 1700000000 })
    getBalance := fun _ => Except.error "down"
    balanceOf := fun _ => Except.error "down"
    now := 1234 }

/-- The single view model produced by the run over `demoEnv`. -/
def demoTx : Transaction :=
  { hash := "0xaaa"
    type := "in"
    amount := "5.0"
    timestamp := 1700000000000
    status := "confirmed"
    fromAddr := "0xother"
    toAddr := "0xME" }

/-! ### Decimal-string lemmas -/

lemma digitChar_val {n : Nat} (h : n < 10) : (Nat.digitChar n).toNat - 48 = n := by
  interval_cases n <;> decide

lemma digitChar_ne_dot {n : Nat} (h : n < 10) : Nat.digitChar n ≠ '.' := by
  interval_cases n <;> decide

lemma digitsVal_append (xs ys : List Char) :
    digitsVal (xs ++ ys) = ys.foldl (fun a c => a * 10 + (c.toNat - 48)) (digitsVal xs) := by
  simp [digitsVal, List.foldl_append]

lemma digitsVal_concat (xs : List Char) (c : Char) :
    digitsVal (xs ++ [c]) = digitsVal xs * 10 + (c.toNat - 48) := by
  simp [digitsVal_append, List.foldl]

lemma digitsVal_natDigitsAux : ∀ fuel n, n < fuel → digitsVal (natDigitsAux fuel n) = n := by
  intro fuel
  induction fuel with
  | zero => intro n h; omega
  | succ f ih =>
    intro n h
    rw [natDigitsAux]
    by_cases h10 : n < 10
    · rw [if_pos h10]
      simpa [digitsVal, List.foldl] using digitChar_val h10
    · rw [if_neg h10]
      rw [digitsVal_concat, ih (n / 10) (by omega), digitChar_val (Nat.mod_lt _ (by omega))]
      omega

lemma digitsVal_natDigits (n : Nat) : digitsVal (natDigits n) = n :=
  digitsVal_natDigitsAux (n + 1) n (Nat.lt_succ_self n)

lemma mem_natDigitsAux_ne_dot : ∀ fuel n c, c ∈ natDigitsAux fuel n → c ≠ '.' := by
  intro fuel
  induction fuel with
  | zero => intro n c h; simp [natDigitsAux] at h
  | succ f ih =>
    intro n c h
    rw [natDigitsAux] at h
    by_cases h10 : n < 10
    · rw [if_pos h10] at h
      simp at h
      subst h
      exact digitChar_ne_dot h10
    · rw [if_neg h10] at h
      simp at h
      rcases h with h | h
      · exact ih _ _ h
      · subst h; exact digitChar_ne_dot (Nat.mod_lt _ (by omega))

lemma mem_natDigits_ne_dot {n : Nat} {c : Char} (h : c ∈ natDigits n) : c ≠ '.' :=
  mem_natDigitsAux_ne_dot _ _ _ h

lemma foldl_zeros (k : Nat) (a : Nat) :
    (List.replicate k '0').foldl (fun a c => a * 10 + (c.toNat - 48)) a = a * 10 ^ k := by
  induction k generalizing a with
  | zero => simp
  | succ m ih =>
    rw [List.replicate_succ, List.foldl_cons, ih]
    have h0 : ('0' : Char).toNat - 48 = 0 := by decide
    rw [h0]
    ring

lemma digitsVal_replicate (k : Nat) : digitsVal (List.replicate k '0') = 0 := by
  rw [digitsVal, foldl_zeros]
  ring

lemma digitsVal_replicate_append (k : Nat) (l : List Char) :
    digitsVal (List.replicate k '0' ++ l) = digitsVal l := by
  rw [digitsVal, List.foldl_append, foldl_zeros]
  simp [digitsVal]

lemma digitsVal_append_replicate (l : List Char) (k : Nat) :
    digitsVal (l ++ List.replicate k '0') = digitsVal l * 10 ^ k := by
  rw [digitsVal_append, foldl_zeros]

lemma digitsVal_padLeftZeros (w : Nat) (l : List Char) :
    digitsVal (padLeftZeros w l) = digitsVal l :=
  digitsVal_replicate_append _ _

lemma trimTrailingZeros_decomp (l : List Char) :
    ∃ k, l = trimTrailingZeros l ++ List.replicate k '0' ∨
      (trimTrailingZeros l = ['0'] ∧ l = List.replicate k '0') := by
  have h1 : List.takeWhile (fun c => decide (c = '0')) l.reverse
      ++ List.dropWhile (fun c => decide (c = '0')) l.reverse = l.reverse :=
    List.takeWhile_append_dropWhile _ _
  have h3 : (List.takeWhile (fun c => decide (c = '0')) l.reverse).reverse
      = List.replicate (List.takeWhile (fun c => decide (c = '0')) l.reverse).length '0' := by
    have hmem : ∀ b ∈ (List.takeWhile (fun c => decide (c = '0')) l.reverse).reverse, b = '0' := by
      intro b hb
      rw [List.mem_reverse] at hb
      simpa using List.mem_takeWhile_imp hb
    have := List.eq_replicate_of_mem hmem
    simpa using this
  have hdecomp : l = (List.dropWhile (fun c => decide (c = '0')) l.reverse).reverse
      ++ List.replicate (List.takeWhile (fun c => decide (c = '0')) l.reverse).length '0' := by
    conv_lhs => rw [← List.reverse_reverse l, ← h1]
    rw [List.reverse_append, h3]
  refine ⟨(List.takeWhile (fun c => decide (c = '0')) l.reverse).length, ?_⟩
  unfold trimTrailingZeros
  by_cases hnil : (List.dropWhile (fun c => decide (c = '0')) l.reverse).reverse = []
  · right
    refine ⟨by simp [hnil], ?_⟩
    conv_lhs => rw [hdecomp]
    rw [hnil, List.nil_append]
  · left
    simp only [hnil, if_neg]
    conv_lhs => rw [hdecomp]
    simp [hnil]

lemma trimTrailingZeros_pos_iff (l : List Char) :
    0 < digitsVal (trimTrailingZeros l) ↔ 0 < digitsVal l := by
  obtain ⟨k, h | ⟨h1, h2⟩⟩ := trimTrailingZeros_decomp l
  · conv_rhs => rw [h]
    rw [digitsVal_append_replicate]
    have hp : 0 < 10 ^ k := Nat.pos_pow_of_pos _ (by omega)
    constructor
    · intro hx; exact Nat.mul_pos hx hp
    · intro hx
      rcases Nat.eq_zero_or_pos (digitsVal (trimTrailingZeros l)) with h0 | h0
      · rw [h0] at hx; simp at hx
      · exact h0
  · rw [h1, h2, digitsVal_replicate]
    simp [digitsVal, List.foldl]

lemma takeWhile_all_append_cons {p : Char → Bool} (A : List Char) (c : Char) (B : List Char)
    (hA : ∀ a ∈ A, p a = true) (hc : p c = false) :
    (A ++ c :: B).takeWhile p = A ∧ (A ++ c :: B).dropWhile p = c :: B := by
  induction A with
  | nil => simp [List.takeWhile, List.dropWhile, hc]
  | cons a A ih =>
    have ha : p a = true := hA a (by simp)
    have ihh := ih (fun x hx => hA x (by simp [hx]))
    simp [List.takeWhile, List.dropWhile, ha, ihh.1, ihh.2]

lemma mem_trimTrailingZeros_ne_dot {l : List Char} (hl : ∀ c ∈ l, c ≠ '.') :
    ∀ c ∈ trimTrailingZeros l, c ≠ '.' := by
  intro c hc
  unfold trimTrailingZeros at hc
  by_cases hnil : (List.dropWhile (fun c => decide (c = '0')) l.reverse).reverse = []
  · simp only [hnil, if_pos] at hc
    simp at hc
    subst hc
    decide
  · rw [if_neg hnil] at hc
    rw [List.mem_reverse] at hc
    have := (List.dropWhile_sublist (l := l.reverse) (p := fun c => decide (c = '0'))).mem hc
    rw [List.mem_reverse] at this
    exact hl c this

lemma mem_padLeftZeros_ne_dot {w : Nat} {l : List Char} (hl : ∀ c ∈ l, c ≠ '.') :
    ∀ c ∈ padLeftZeros w l, c ≠ '.' := by
  intro c hc
  rw [padLeftZeros, List.mem_append] at hc
  rcases hc with hc | hc
  · have := List.eq_of_mem_replicate hc
    subst this; decide
  · exact hl c hc

lemma parseDecQ_pos_sum (a b k : Nat) :
    0 < mkRat (a * 10 ^ k + b) (10 ^ k) ↔ 0 < a ∨ 0 < b := by
  have hk : 0 < 10 ^ k := Nat.pos_pow_of_pos _ (by omega)
  constructor
  · intro h
    by_contra hc
    push_neg at hc
    obtain ⟨h1, h2⟩ := hc
    have ha : a = 0 := by omega
    have hb : b = 0 := by omega
    rw [ha, hb] at h
    norm_num at h
  · intro h
    have hnum : 0 < a * 10 ^ k + b := by
      rcases h with h | h
      · have := Nat.mul_pos h hk
        omega
      · omega
    rw [Rat.mkRat_eq_div]
    apply div_pos
    · exact_mod_cast hnum
    · exact_mod_cast hk

lemma parseDecQ_formatUnits_pos_iff (v d : Nat) :
    0 < parseDecQ (formatUnits v d) ↔ 0 < v := by
  have hBne : ∀ c ∈ trimTrailingZeros (padLeftZeros d (natDigits (v % 10 ^ d))), c ≠ '.' :=
    mem_trimTrailingZeros_ne_dot (mem_padLeftZeros_ne_dot (fun c hc => mem_natDigits_ne_dot hc))
  have hAne : ∀ a ∈ natDigits (v / 10 ^ d), (fun c => decide (c ≠ '.')) a = true := by
    intro a ha
    simpa using mem_natDigits_ne_dot ha
  have hdot : (fun c => decide (c ≠ '.')) '.' = false := by decide
  have hsplit := takeWhile_all_append_cons (p := fun c => decide (c ≠ '.'))
    (natDigits (v / 10 ^ d)) '.' (trimTrailingZeros (padLeftZeros d (natDigits (v % 10 ^ d))))
    hAne hdot
  have hdata : (formatUnits v d).data
      = natDigits (v / 10 ^ d) ++ '.' :: trimTrailingZeros (padLeftZeros d (natDigits (v % 10 ^ d))) := rfl
  rw [parseDecQ]
  simp only [hdata, hsplit.1, hsplit.2, List.tail_cons]
  rw [parseDecQ_pos_sum, digitsVal_natDigits, trimTrailingZeros_pos_iff,
    digitsVal_padLeftZeros, digitsVal_natDigits]
  constructor
  · rintro (h | h)
    · rcases Nat.eq_zero_or_pos v with rfl | hv
      · simp at h
      · exact hv
    · rcases Nat.eq_zero_or_pos v with rfl | hv
      · simp at h
      · exact hv
  · intro h
    by_contra hc
    push_neg at hc
    obtain ⟨h1, h2⟩ := hc
    have hdm := Nat.div_add_mod v (10 ^ d)
    rw [Nat.le_zero.mp h1, Nat.le_zero.mp h2] at hdm
    simp at hdm
    omega

/-! ### Sorting lemmas -/

lemma mem_insertDesc {t x : Transaction} :
    ∀ {l : List Transaction}, x ∈ insertDesc t l ↔ x = t ∨ x ∈ l := by
  intro l
  induction l with
  | nil => simp [insertDesc]
  | cons h rest ih =>
    rw [insertDesc]
    by_cases hle : h.timestamp ≤ t.timestamp
    · simp [hle]
    · simp only [if_neg hle, List.mem_cons, ih]
      tauto

lemma insertDesc_perm (t : Transaction) :
    ∀ (l : List Transaction), (insertDesc t l).Perm (t :: l) := by
  intro l
  induction l with
  | nil => simp [insertDesc]
  | cons h rest ih =>
    rw [insertDesc]
    by_cases hle : h.timestamp ≤ t.timestamp
    · rw [if_pos hle]
    · rw [if_neg hle]
      exact (List.Perm.cons h ih).trans (List.Perm.swap t h rest)

lemma sortDesc_perm : ∀ (l : List Transaction), (sortDesc l).Perm l := by
  intro l
  induction l with
  | nil => simp [sortDesc]
  | cons x xs ih =>
    rw [sortDesc]
    exact (insertDesc_perm x (sortDesc xs)).trans (List.Perm.cons x ih)

lemma sorted_insertDesc {t : Transaction} :
    ∀ {l : List Transaction},
      List.Pairwise (fun a b => b.timestamp ≤ a.timestamp) l →
      List.Pairwise (fun a b => b.timestamp ≤ a.timestamp) (insertDesc t l) := by
  intro l
  induction l with
  | nil => intro _; simp [insertDesc]
  | cons h rest ih =>
    intro hp
    rw [List.pairwise_cons] at hp
    rw [insertDesc]
    by_cases hle : h.timestamp ≤ t.timestamp
    · rw [if_pos hle, List.pairwise_cons]
      constructor
      · intro x hx
        rcases List.mem_cons.mp hx with rfl | hx
        · exact hle
        · exact le_trans (hp.1 x hx) hle
      · rw [List.pairwise_cons]
        exact hp
    · rw [if_neg hle, List.pairwise_cons]
      constructor
      · intro x hx
        rcases mem_insertDesc.mp hx with rfl | hx
        · omega
        · exact hp.1 x hx
      · exact ih hp.2

lemma sorted_sortDesc : ∀ (l : List Transaction),
    List.Pairwise (fun a b => b.timestamp ≤ a.timestamp) (sortDesc l) := by
  intro l
  induction l with
  | nil => simp [sortDesc]
  | cons x xs ih =>
    rw [sortDesc]
    exact sorted_insertDesc ih

/-! ### Sub-range lemmas -/

lemma mkRangesAux_succ (fuel i cb : Nat) :
    mkRangesAux (fuel + 1) i cb =
      if i < cb then (i, min (i + CHUNK_SIZE - 1) cb) :: mkRangesAux fuel (i + CHUNK_SIZE) cb
      else [] := rfl

lemma chunk_sub_one (i : Nat) : i + CHUNK_SIZE - 1 = i + 2499 := by
  simp [CHUNK_SIZE]

lemma chunk_add (i : Nat) : i + CHUNK_SIZE = i + 2500 := rfl

lemma mkRangesAux_succ' (fuel i cb : Nat) :
    mkRangesAux (fuel + 1) i cb =
      if i < cb then (i, min (i + 2499) cb) :: mkRangesAux fuel (i + 2500) cb
      else [] := by
  rw [mkRangesAux_succ, chunk_sub_one, chunk_add]

lemma mkRanges_closed_form (g : Nat) :
    mkRanges g (g + 7500) =
      [(g, g + 2499), (g + 2500, g + 4999), (g + 5000, g + 7499)] := by
  show mkRangesAux ((g + 7500) + 1) g (g + 7500) = _
  rw [mkRangesAux_succ', if_pos (by omega)]
  rw [show g + 7500 = (g + 7499) + 1 by omega]
  rw [mkRangesAux_succ', if_pos (by omega)]
  rw [show g + 7499 = (g + 7498) + 1 by omega]
  rw [mkRangesAux_succ', if_pos (by omega)]
  rw [show g + 7498 = (g + 7497) + 1 by omega]
  rw [mkRangesAux_succ', if_neg (by omega)]
  have h1 : min (g + 2499) (g + 7499 + 1) = g + 2499 := by omega
  have h2 : min (g + 2500 + 2499) (g + 7499 + 1) = g + 4999 := by omega
  have h3 : min (g + 2500 + 2500 + 2499) (g + 7499 + 1) = g + 7499 := by omega
  simp only [h1, h2, h3]

lemma mkRangesAux_fst_lb :
    ∀ fuel i cb r, r ∈ mkRangesAux fuel i cb → i ≤ r.1 := by
  intro fuel
  induction fuel with
  | zero => intro i cb r h; simp [mkRangesAux] at h
  | succ f ih =>
    intro i cb r h
    rw [mkRangesAux_succ'] at h
    by_cases hlt : i < cb
    · rw [if_pos hlt] at h
      rcases List.mem_cons.mp h with rfl | h
      · exact le_refl _
      · have := ih _ _ _ h
        omega
    · rw [if_neg hlt] at h
      simp at h

lemma mkRangesAux_nodup :
    ∀ fuel i cb, (mkRangesAux fuel i cb).Nodup := by
  intro fuel
  induction fuel with
  | zero => intro i cb; simp [mkRangesAux]
  | succ f ih =>
    intro i cb
    rw [mkRangesAux_succ']
    by_cases hlt : i < cb
    · rw [if_pos hlt, List.nodup_cons]
      refine ⟨?_, ih _ _⟩
      intro hmem
      have := mkRangesAux_fst_lb _ _ _ _ hmem
      omega
    · rw [if_neg hlt]; simp

lemma mkRanges_nodup (fromBlock currentBlock : Nat) :
    (mkRanges fromBlock currentBlock).Nodup :=
  mkRangesAux_nodup _ _ _

/-! ### Deduplication-map lemmas -/

lemma fst_mapSet_keys (m : List (String × EventLog)) (k : String) (v : EventLog) :
    (mapSet m k v).map Prod.fst
      = m.map Prod.fst ++ (if m.any (fun p => p.1 = k) then [] else [k]) := by
  rw [mapSet]
  by_cases h : m.any (fun p => p.1 = k)
  · rw [if_pos h, if_pos h, List.append_nil, List.map_map]
    apply List.map_congr_left
    intro p _
    by_cases hp : p.1 = k
    · simp [hp]
    · simp [hp]
  · rw [if_neg h, if_neg h]
    simp

lemma nodup_keys_mapSet {m : List (String × EventLog)} {k : String} {v : EventLog}
    (h : (m.map Prod.fst).Nodup) : ((mapSet m k v).map Prod.fst).Nodup := by
  rw [fst_mapSet_keys]
  by_cases hany : m.any (fun p => p.1 = k)
  · rw [if_pos hany, List.append_nil]
    exact h
  · rw [if_neg hany]
    rw [List.nodup_append]
    refine ⟨h, by simp, ?_⟩
    intro a ha hb
    simp at hb
    subst hb
    rw [List.any_eq_true] at hany
    rw [List.mem_map] at ha
    obtain ⟨p, hp, hpk⟩ := ha
    exact hany ⟨p, hp, by simp [hpk]⟩

lemma nodup_keys_uniqueLogsMap_aux :
    ∀ (logs : List EventLog) (m : List (String × EventLog)),
      (m.map Prod.fst).Nodup →
      ((logs.foldl (fun m l => mapSet m (logKey l) l) m).map Prod.fst).Nodup := by
  intro logs
  induction logs with
  | nil => intro m h; exact h
  | cons a rest ih =>
    intro m h
    exact ih _ (nodup_keys_mapSet h)

lemma nodup_keys_uniqueLogsMap (logs : List EventLog) :
    ((uniqueLogsMap logs).map Prod.fst).Nodup :=
  nodup_keys_uniqueLogsMap_aux logs [] (by simp)

lemma mem_mapSet {m : List (String × EventLog)} {k : String} {v : EventLog}
    {p : String × EventLog} (h : p ∈ mapSet m k v) : p ∈ m ∨ p = (k, v) := by
  rw [mapSet] at h
  by_cases hany : m.any (fun p => p.1 = k)
  · rw [if_pos hany, List.mem_map] at h
    obtain ⟨q, hq, hqe⟩ := h
    by_cases hqk : q.1 = k
    · right; rw [← hqe]; simp [hqk]
    · left; rw [← hqe]; simpa [hqk] using hq
  · rw [if_neg hany, List.mem_append] at h
    rcases h with h | h
    · exact Or.inl h
    · right; simpa using h

lemma mem_uniqueLogsMap_aux :
    ∀ (logs : List EventLog) (m : List (String × EventLog)) (p : String × EventLog),
      p ∈ logs.foldl (fun m l => mapSet m (logKey l) l) m →
      p ∈ m ∨ ∃ l ∈ logs, p = (logKey l, l) := by
  intro logs
  induction logs with
  | nil => intro m p h; exact Or.inl h
  | cons a rest ih =>
    intro m p h
    rcases ih _ p h with h' | ⟨l, hl, rfl⟩
    · rcases mem_mapSet h' with h'' | rfl
      · exact Or.inl h''
      · exact Or.inr ⟨a, by simp, rfl⟩
    · exact Or.inr ⟨l, by simp [hl], rfl⟩

lemma mem_uniqueLogsMap {logs : List EventLog} {p : String × EventLog}
    (h : p ∈ uniqueLogsMap logs) : p.1 = logKey p.2 ∧ p.2 ∈ logs := by
  rcases mem_uniqueLogsMap_aux logs [] p h with h' | ⟨l, hl, rfl⟩
  · simp at h'
  · exact ⟨rfl, hl⟩

lemma key_mem_mapSet (m : List (String × EventLog)) (k : String) (v : EventLog) :
    k ∈ (mapSet m k v).map Prod.fst := by
  rw [fst_mapSet_keys]
  by_cases hany : m.any (fun p => p.1 = k)
  · rw [if_pos hany]
    rw [List.any_eq_true] at hany
    obtain ⟨p, hp, hpk⟩ := hany
    simp at hpk
    rw [List.append_nil, List.mem_map]
    exact ⟨p, hp, hpk⟩
  · rw [if_neg hany]
    simp

lemma keys_monotone_mapSet {m : List (String × EventLog)} {k' : String}
    (h : k' ∈ m.map Prod.fst) (k : String) (v : EventLog) :
    k' ∈ (mapSet m k v).map Prod.fst := by
  rw [fst_mapSet_keys]
  exact List.mem_append_left _ h

lemma keys_monotone_foldl :
    ∀ (logs : List EventLog) (m : List (String × EventLog)) (k' : String),
      k' ∈ m.map Prod.fst →
      k' ∈ ((logs.foldl (fun m l => mapSet m (logKey l) l) m).map Prod.fst) := by
  intro logs
  induction logs with
  | nil => intro m k' h; exact h
  | cons a rest ih =>
    intro m k' h
    exact ih _ _ (keys_monotone_mapSet h _ _)

lemma key_present_aux :
    ∀ (logs : List EventLog) (m : List (String × EventLog)) (l : EventLog), l ∈ logs →
      logKey l ∈ ((logs.foldl (fun m l => mapSet m (logKey l) l) m).map Prod.fst) := by
  intro logs
  induction logs with
  | nil => intro m l h; simp at h
  | cons a rest ih =>
    intro m l h
    rcases List.mem_cons.mp h with rfl | h'
    · exact keys_monotone_foldl rest _ _ (key_mem_mapSet m (logKey l) l)
    · exact ih _ _ h'

lemma key_present_uniqueLogsMap {logs : List EventLog} {l : EventLog} (h : l ∈ logs) :
    logKey l ∈ (uniqueLogsMap logs).map Prod.fst :=
  key_present_aux logs [] l h

lemma mem_uniqueLogs_of_unique_key {logs : List EventLog} {l : EventLog}
    (hl : l ∈ logs) (huniq : ∀ l' ∈ logs, logKey l' = logKey l → l' = l) :
    l ∈ uniqueLogs logs := by
  have hk := key_present_uniqueLogsMap hl
  rw [List.mem_map] at hk
  obtain ⟨p, hp, hpk⟩ := hk
  have hinv := mem_uniqueLogsMap hp
  have : p.2 = l := huniq p.2 hinv.2 (by rw [← hinv.1, hpk])
  rw [uniqueLogs, List.mem_map]
  exact ⟨p, hp, this⟩

lemma pairwise_uniqueLogs (logs : List EventLog) :
    List.Pairwise
      (fun l l' => ¬(l.transactionHash = l'.transactionHash ∧ l.index = l'.index))
      (uniqueLogs logs) := by
  have h1 : List.Pairwise (fun p q : String × EventLog => p.1 ≠ q.1) (uniqueLogsMap logs) := by
    have := nodup_keys_uniqueLogsMap logs
    rwa [List.Nodup, List.pairwise_map] at this
  have h2 : List.Pairwise (fun p q : String × EventLog => logKey p.2 ≠ logKey q.2)
      (uniqueLogsMap logs) := by
    refine h1.imp_of_mem ?_
    intro p q hp hq hne
    rw [(mem_uniqueLogsMap hp).1, (mem_uniqueLogsMap hq).1] at hne
    exact hne
  rw [uniqueLogs, List.pairwise_map]
  refine h2.imp ?_
  intro p q hne hcon
  exact hne (by rw [logKey, logKey, hcon.1, hcon.2])

/-! ### Block-map and pipeline-membership lemmas -/

lemma mem_buildBlockMap_aux (env : Chain) :
    ∀ (bns : List Nat) (m : List (Nat × Nat)) (p : Nat × Nat),
      p ∈ bns.foldl (fun m bn =>
        match env.getBlock bn with
        | Except.ok (some b) => m ++ [(bn, b.timestamp * 1000)]
        | _ => m) m →
      p ∈ m ∨ ∃ b, env.getBlock p.1 = Except.ok (some b) ∧ p.2 = b.timestamp * 1000 := by
  intro bns
  induction bns with
  | nil => intro m p h; exact Or.inl h
  | cons a rest ih =>
    intro m p h
    rcases ih _ p h with h' | h'
    · have h2 : p ∈ (match env.getBlock a with
        | Except.ok (some b) => m ++ [(a, b.timestamp * 1000)]
        | _ => m) := h'
      split at h2
      · next b ha =>
        rcases List.mem_append.mp h2 with h3 | h3
        · exact Or.inl h3
        · simp at h3
          right
          subst h3
          exact ⟨b, by simpa using ha, rfl⟩
      · next => exact Or.inl h2
    · exact Or.inr h'

lemma mem_buildBlockMap {env : Chain} {bns : List Nat} {p : Nat × Nat}
    (h : p ∈ buildBlockMap env bns) :
    ∃ b, env.getBlock p.1 = Except.ok (some b) ∧ p.2 = b.timestamp * 1000 := by
  rcases mem_buildBlockMap_aux env bns [] p h with h' | h'
  · simp at h'
  · exact h'

lemma lookup_mem :
    ∀ {l : List (Nat × Nat)} {k v : Nat}, l.lookup k = some v → (k, v) ∈ l := by
  intro l
  induction l with
  | nil => intro k v h; simp [List.lookup] at h
  | cons a rest ih =>
    intro k v h
    rw [List.lookup] at h
    cases hk : k == a.1 with
    | true =>
      rw [hk] at h
      have hk' : k = a.1 := by simpa using hk
      have hv : a.2 = v := by simpa using h
      have hkv : (k, v) = a := by rw [hk', ← hv]
      rw [hkv]
      exact List.mem_cons_self _ _
    | false =>
      rw [hk] at h
      exact List.mem_cons_of_mem _ (ih h)

lemma lookup_buildBlockMap_fail {env : Chain} {bns : List Nat} {bn : Nat} {e : String}
    (h : env.getBlock bn = Except.error e) :
    (buildBlockMap env bns).lookup bn = none := by
  match hl : (buildBlockMap env bns).lookup bn with
  | none => rfl
  | some t =>
    have hmem : (bn, t) ∈ buildBlockMap env bns := lookup_mem hl
    obtain ⟨b, hb, _⟩ := mem_buildBlockMap hmem
    rw [h] at hb
    cases hb

lemma resolveTimestamp_fail {env : Chain} {bns : List Nat} {bn : Nat} {e : String}
    (h : env.getBlock bn = Except.error e) :
    resolveTimestamp env (buildBlockMap env bns) bn = env.now := by
  rw [resolveTimestamp, lookup_buildBlockMap_fail h]

lemma getRecentTransactions_ok {env : Chain} {address : String} {cb : Nat}
    (h : env.blockNumber = Except.ok cb) :
    getRecentTransactions env address = pipelineTail env address (combinedLogs env address cb) := by
  rw [getRecentTransactions, h]
  rfl

lemma mem_pipelineTail {env : Chain} {address : String} {logs : List EventLog}
    {tx : Transaction} :
    tx ∈ pipelineTail env address logs ↔
      (∃ log ∈ uniqueLogs logs,
        tx = toTransaction env address
          (buildBlockMap env (distinctBlockNumbers (uniqueLogs logs))) log)
      ∧ 0 < parseDecQ tx.amount := by
  rw [pipelineTail]
  constructor
  · intro h
    have hmem := (sortDesc_perm _).mem_iff.mp h
    rw [List.mem_filter] at hmem
    obtain ⟨hmap, hpred⟩ := hmem
    rw [List.mem_map] at hmap
    obtain ⟨log, hlog, rfl⟩ := hmap
    refine ⟨⟨log, hlog, rfl⟩, ?_⟩
    simpa using hpred
  · rintro ⟨⟨log, hlog, rfl⟩, hpos⟩
    rw [(sortDesc_perm _).mem_iff, List.mem_filter]
    refine ⟨List.mem_map.mpr ⟨log, hlog, rfl⟩, by simpa using hpos⟩

/-! ### Completion-order and patching lemmas -/

lemma perm_lookup :
    ∀ {d d' : List ((Nat × Nat) × List EventLog)}, d.Perm d' →
      (d.map Prod.fst).Nodup → ∀ k, d.lookup k = d'.lookup k := by
  intro d d' h
  induction h with
  | nil => intro _ k; rfl
  | cons x h ih =>
    intro hnd k
    rw [List.lookup, List.lookup]
    cases hx : k == x.1 with
    | true => rfl
    | false =>
      rw [List.map_cons, List.nodup_cons] at hnd
      exact ih hnd.2 k
  | swap x y l =>
    intro hnd k
    simp only [List.map_cons, List.nodup_cons, List.mem_cons] at hnd
    have hxy : y.1 ≠ x.1 := fun he => hnd.1 (Or.inl he)
    rw [List.lookup, List.lookup, List.lookup, List.lookup]
    cases hy : k == y.1 with
    | true =>
      cases hx : k == x.1 with
      | true =>
        exact absurd (by rw [← beq_iff_eq.mp hy, ← beq_iff_eq.mp hx]) hxy
      | false => rfl
    | false =>
      cases hx : k == x.1 with
      | true => rfl
      | false => rfl
  | trans h1 h2 ih1 ih2 =>
    intro hnd k
    have hnd2 : (_ : List ((Nat × Nat) × List EventLog)).map Prod.fst |>.Nodup :=
      ((h1.map Prod.fst).nodup_iff).mp hnd
    rw [ih1 hnd k, ih2 hnd2 k]

lemma lookup_map_graph (env : Chain) (f : XferFilter) :
    ∀ (rs : List (Nat × Nat)) (r : Nat × Nat), r ∈ rs →
      (rs.map (fun r' => (r', chunkResult env f r'))).lookup r
        = some (chunkResult env f r) := by
  intro rs
  induction rs with
  | nil => intro r h; simp at h
  | cons a rest ih =>
    intro r h
    rw [List.map_cons, List.lookup]
    cases ha : r == a with
    | true =>
      have : r = a := beq_iff_eq.mp ha
      rw [this]
    | false =>
      have hne : r ≠ a := fun he => by rw [he] at ha; simp at ha
      rcases List.mem_cons.mp h with rfl | h'
      · exact absurd rfl hne
      · exact ih r h'

lemma flatMap_congr_mem {α β : Type} {l : List α} {f g : α → List β}
    (h : ∀ x ∈ l, f x = g x) : l.flatMap f = l.flatMap g := by
  induction l with
  | nil => rfl
  | cons a rest ih =>
    rw [List.flatMap_cons, List.flatMap_cons, h a (by simp),
      ih (fun x hx => h x (List.mem_cons_of_mem _ hx))]

lemma keys_deliveredOf (env : Chain) (f : XferFilter) (fromBlock currentBlock : Nat) :
    ((deliveredOf env f fromBlock currentBlock).map Prod.fst).Nodup := by
  rw [deliveredOf, List.map_map]
  have : (Prod.fst ∘ fun r : Nat × Nat => (r, chunkResult env f r)) = id := rfl
  rw [this, List.map_id]
  exact mkRanges_nodup _ _

lemma assembleDelivered_of_perm {env : Chain} {f : XferFilter}
    {fromBlock currentBlock : Nat} {d : List ((Nat × Nat) × List EventLog)}
    (h : d.Perm (deliveredOf env f fromBlock currentBlock)) :
    assembleDelivered (mkRanges fromBlock currentBlock) d
      = fetchLogsChunked env f fromBlock currentBlock := by
  rw [assembleDelivered, fetchLogsChunked]
  apply flatMap_congr_mem
  intro r hr
  rw [← perm_lookup h.symm (keys_deliveredOf env f fromBlock currentBlock) r]
  rw [deliveredOf, lookup_map_graph env f _ r hr]
  rfl

lemma chunkResult_patch (env : Chain) (f0 : XferFilter) (a0 b0 : Nat) (e : String)
    (hfail : env.queryFilter f0 a0 b0 = Except.error e) (f : XferFilter) (r : Nat × Nat) :
    chunkResult (patchQuery env f0 a0 b0 (Except.ok [])) f r = chunkResult env f r := by
  rw [chunkResult, chunkResult, patchQuery]
  by_cases hc : f = f0 ∧ r.1 = a0 ∧ r.2 = b0
  · simp only [hc, if_pos, and_self]
    rw [hfail]
  · simp only [if_neg hc]

lemma fetchLogsChunked_patch (env : Chain) (f0 : XferFilter) (a0 b0 : Nat) (e : String)
    (hfail : env.queryFilter f0 a0 b0 = Except.error e) (f : XferFilter)
    (fromBlock currentBlock : Nat) :
    fetchLogsChunked (patchQuery env f0 a0 b0 (Except.ok [])) f fromBlock currentBlock
      = fetchLogsChunked env f fromBlock currentBlock := by
  rw [fetchLogsChunked, fetchLogsChunked]
  exact flatMap_congr_mem (fun r _ => chunkResult_patch env f0 a0 b0 e hfail f r)

lemma flatMap_nil_of_all {α β : Type} {l : List α} {f : α → List β}
    (h : ∀ x ∈ l, f x = []) : l.flatMap f = [] := by
  induction l with
  | nil => rfl
  | cons a rest ih =>
    rw [List.flatMap_cons, h a (by simp), ih (fun x hx => h x (List.mem_cons_of_mem _ hx))]
    rfl

/-! ### Claim theorems -/

/-- C1, counterexample: the claim says the queried sub-ranges partition the
whole inclusive window `[head − 7500, head]`, every block of it — the head
included — lying in exactly one sub-range.  At head block 1,000,000 the head
block lies in no queried sub-range. -/
theorem C1_head_partition_counterexample :
    ¬ (∀ b, 1000000 - SCAN_RANGE ≤ b → b ≤ 1000000 →
        (mkRanges (1000000 - SCAN_RANGE) 1000000).countP
          (fun r => decide (r.1 ≤ b ∧ b ≤ r.2)) = 1) := by
  intro hall
  have h := hall 1000000 (by norm_num [SCAN_RANGE]) (le_refl _)
  rw [show (1000000 : Nat) - SCAN_RANGE = 992500 from by norm_num [SCAN_RANGE]] at h
  rw [show (1000000 : Nat) = 992500 + 7500 from by norm_num] at h
  rw [mkRanges_closed_form] at h
  simp only [List.countP_cons, List.countP_nil, decide_eq_true_eq] at h
  split_ifs at h <;> omega

/-- C1, amended: for every head block number `head ≥ 7500`, the window start
is `max(0, head − 7500)`, and the queried sub-ranges partition the window
`[head − 7500, head − 1]` — each of its blocks lies in exactly one sub-range,
each sub-range spans exactly 2,500 blocks, and the head block itself lies in
no queried sub-range. -/
theorem C1_window_partition (head : Nat) (hhead : SCAN_RANGE ≤ head) :
    head - SCAN_RANGE = max 0 (head - 7500)
    ∧ (∀ b, head - SCAN_RANGE ≤ b → b < head →
        (mkRanges (head - SCAN_RANGE) head).countP
          (fun r => decide (r.1 ≤ b ∧ b ≤ r.2)) = 1)
    ∧ (mkRanges (head - SCAN_RANGE) head).countP
        (fun r => decide (r.1 ≤ head ∧ head ≤ r.2)) = 0
    ∧ ∀ r ∈ mkRanges (head - SCAN_RANGE) head, r.2 + 1 - r.1 = CHUNK_SIZE := by
  obtain ⟨g, rfl⟩ : ∃ g, head = g + 7500 := by
    refine ⟨head - 7500, ?_⟩
    have : (7500 : Nat) ≤ head := by simpa [SCAN_RANGE] using hhead
    omega
  have hfb : g + 7500 - SCAN_RANGE = g := by simp [SCAN_RANGE]
  rw [hfb, mkRanges_closed_form]
  refine ⟨by simp [SCAN_RANGE], ?_, ?_, ?_⟩
  · intro b hb1 hb2
    simp only [List.countP_cons, List.countP_nil, decide_eq_true_eq]
    split_ifs <;> omega
  · simp only [List.countP_cons, List.countP_nil, decide_eq_true_eq]
    split_ifs <;> omega
  · intro r hr
    simp only [List.mem_cons, List.not_mem_nil, or_false] at hr
    rcases hr with rfl | rfl | rfl <;> (simp only [CHUNK_SIZE]; omega)

/-- C1 witness: the amended theorem applied at head block 1,000,000. -/
theorem C1_window_partition_witness :
    (mkRanges (1000000 - SCAN_RANGE) 1000000).countP
      (fun r => decide (r.1 ≤ 1000000 ∧ 1000000 ≤ r.2)) = 0 :=
  (C1_window_partition 1000000 (by decide)).2.2.1

/-- C2: if the head-block lookup fails, or the head-block lookup succeeds
but every sub-range query fails, `getRecentTransactions` returns the empty
list instead of raising. -/
theorem C2_no_raise_empty_on_failure (env : Chain) (address : String) :
    (∀ e, env.blockNumber = Except.error e → getRecentTransactions env address = [])
    ∧ (∀ cb, env.blockNumber = Except.ok cb →
        (∀ f a b, ∃ e, env.queryFilter f a b = Except.error e) →
        getRecentTransactions env address = []) := by
  constructor
  · intro e he
    rw [getRecentTransactions, he]
  · intro cb hcb hfail
    rw [getRecentTransactions_ok hcb]
    have h1 : ∀ f, fetchLogsChunked env f (cb - SCAN_RANGE) cb = [] := by
      intro f
      rw [fetchLogsChunked]
      apply flatMap_nil_of_all
      intro r _
      obtain ⟨e, he⟩ := hfail f r.1 r.2
      rw [chunkResult, he]
    have hcomb : combinedLogs env address cb = [] := by
      rw [combinedLogs, h1, h1, List.append_nil]
    rw [hcomb]
    rfl

/-- C2 witness: a totally failing environment yields the empty list. -/
theorem C2_witness : getRecentTransactions demoEnvFail "0xany" = [] :=
  (C2_no_raise_empty_on_failure demoEnvFail "0xany").1 "no head" rfl

/-- C3: the deduplicated event list never contains two events with the same
(transaction identifier, event position); and in the concrete self-transfer
run, where both filters deliver the same event, the result contains exactly
one Transaction for that pair. -/
theorem C3_no_duplicate_pairs (env : Chain) (address : String) (currentBlock : Nat) :
    List.Pairwise
      (fun l l' => ¬(l.transactionHash = l'.transactionHash ∧ l.index = l'.index))
      (uniqueLogs (combinedLogs env address currentBlock))
    ∧ (getRecentTransactions selfEnv "0xme").countP
        (fun tx => tx.hash == "0xself") = 1 :=
  ⟨pairwise_uniqueLogs _, by decide⟩

/-- C4: the returned list is sorted non-increasing by timestamp. -/
theorem C4_sorted_descending (env : Chain) (address : String) :
    List.Pairwise (fun a b => b.timestamp ≤ a.timestamp)
      (getRecentTransactions env address) := by
  rw [getRecentTransactions]
  split
  · exact List.Pairwise.nil
  · exact sorted_sortDesc _

/-- C5: every returned entry has a strictly positive amount and stems from a
deduplicated event with strictly positive raw value (zero-value events are
excluded). -/
theorem C5_positive_amounts (env : Chain) (address : String) (tx : Transaction)
    (htx : tx ∈ getRecentTransactions env address) :
    0 < parseDecQ tx.amount
    ∧ ∃ cb log, env.blockNumber = Except.ok cb
        ∧ log ∈ uniqueLogs (combinedLogs env address cb)
        ∧ tx = toTransaction env address (blockMapOf env address cb) log
        ∧ 0 < log.argValue := by
  cases hcb : env.blockNumber with
  | error e =>
    rw [getRecentTransactions, hcb] at htx
    simp at htx
  | ok cb =>
    rw [getRecentTransactions_ok hcb] at htx
    obtain ⟨⟨log, hlog, rfl⟩, hpos⟩ := mem_pipelineTail.mp htx
    refine ⟨hpos, cb, log, rfl, hlog, rfl, ?_⟩
    exact (parseDecQ_formatUnits_pos_iff _ _).mp hpos

/-- C5 witness: the theorem applied to the single entry of the `demoEnv`
run. -/
theorem C5_positive_amounts_witness :
    0 < parseDecQ demoTx.amount
    ∧ ∃ cb log, demoEnv.blockNumber = Except.ok cb
        ∧ log ∈ uniqueLogs (combinedLogs demoEnv "0xme" cb)
        ∧ demoTx = toTransaction demoEnv "0xme" (blockMapOf demoEnv "0xme" cb) log
        ∧ 0 < log.argValue :=
  C5_positive_amounts demoEnv "0xme" demoTx (by decide)

/-- C6: every returned entry has status `"confirmed"`, direction `"in"`
exactly when the event recipient equals the queried account under
case-insensitive comparison (`"out"` otherwise), and an amount formatted
from the raw value with 6 decimals — in particular raw 5,000,000 formats as
`"5.0"`. -/
theorem C6_direction_amount_status (env : Chain) (address : String) (tx : Transaction)
    (htx : tx ∈ getRecentTransactions env address) :
    tx.status = "confirmed"
    ∧ (tx.type = "in" ∨ tx.type = "out")
    ∧ formatUnits 5000000 6 = "5.0"
    ∧ ∃ cb log, env.blockNumber = Except.ok cb
        ∧ log ∈ uniqueLogs (combinedLogs env address cb)
        ∧ tx.amount = formatUnits log.argValue 6
        ∧ (tx.type = "in" ↔ toLowerStr log.argTo = toLowerStr address) := by
  cases hcb : env.blockNumber with
  | error e =>
    rw [getRecentTransactions, hcb] at htx
    simp at htx
  | ok cb =>
    rw [getRecentTransactions_ok hcb] at htx
    obtain ⟨⟨log, hlog, rfl⟩, _⟩ := mem_pipelineTail.mp htx
    refine ⟨rfl, ?_, by decide, cb, log, rfl, hlog, rfl, ?_⟩
    · by_cases hc : toLowerStr log.argTo = toLowerStr address
      · left; simp [toTransaction, hc]
      · right; simp [toTransaction, hc]
    · by_cases hc : toLowerStr log.argTo = toLowerStr address
      · simp [toTransaction, hc]
      · simp [toTransaction, hc]

/-- C6 witness: the theorem applied to the single entry of the `demoEnv`
run. -/
theorem C6_direction_amount_status_witness :
    demoTx.status = "confirmed"
    ∧ (demoTx.type = "in" ∨ demoTx.type = "out")
    ∧ formatUnits 5000000 6 = "5.0"
    ∧ ∃ cb log, demoEnv.blockNumber = Except.ok cb
        ∧ log ∈ uniqueLogs (combinedLogs demoEnv "0xme" cb)
        ∧ demoTx.amount = formatUnits log.argValue 6
        ∧ (demoTx.type = "in" ↔ toLowerStr log.argTo = toLowerStr "0xme") :=
  C6_direction_amount_status demoEnv "0xme" demoTx (by decide)

/-- C7: a failing sub-range query is equivalent to that sub-range succeeding
with no events (so it contributes zero events and never aborts the scan), and
every event fetched by a succeeding sub-range query of either filter is in
the merged log list. -/
theorem C7_chunk_failure_tolerance (env : Chain) (address : String)
    (f0 : XferFilter) (a0 b0 : Nat) (e : String)
    (hfail : env.queryFilter f0 a0 b0 = Except.error e) :
    getRecentTransactions env address
      = getRecentTransactions (patchQuery env f0 a0 b0 (Except.ok [])) address
    ∧ ∀ cb r logs log f, env.blockNumber = Except.ok cb →
        r ∈ mkRanges (cb - SCAN_RANGE) cb →
        (f = XferFilter.incoming address ∨ f = XferFilter.outgoing address) →
        env.queryFilter f r.1 r.2 = Except.ok logs →
        log ∈ logs → log ∈ combinedLogs env address cb := by
  constructor
  · cases hcb : env.blockNumber with
    | error e' =>
      rw [getRecentTransactions, hcb, getRecentTransactions,
        show (patchQuery env f0 a0 b0 (Except.ok [])).blockNumber
          = env.blockNumber from rfl, hcb]
    | ok cb =>
      rw [getRecentTransactions_ok hcb,
        getRecentTransactions_ok
          (show (patchQuery env f0 a0 b0 (Except.ok [])).blockNumber
            = Except.ok cb from hcb)]
      have hcomb : combinedLogs (patchQuery env f0 a0 b0 (Except.ok [])) address cb
          = combinedLogs env address cb := by
        rw [combinedLogs, combinedLogs,
          fetchLogsChunked_patch env f0 a0 b0 e hfail,
          fetchLogsChunked_patch env f0 a0 b0 e hfail]
      rw [hcomb]
      rfl
  · intro cb r logs log f hcb hr hforig hok hlog
    rw [combinedLogs, List.mem_append]
    rcases hforig with rfl | rfl
    · left
      rw [fetchLogsChunked, List.mem_flatMap]
      exact ⟨r, hr, by rw [chunkResult, hok]; exact hlog⟩
    · right
      rw [fetchLogsChunked, List.mem_flatMap]
      exact ⟨r, hr, by rw [chunkResult, hok]; exact hlog⟩

/-- C7 witness: in `demoEnvMixed` the first sub-range of the recipient
filter fails, and the run equals the run in which it succeeds with no
events. -/
theorem C7_chunk_failure_tolerance_witness :
    getRecentTransactions demoEnvMixed "0xme"
      = getRecentTransactions
          (patchQuery demoEnvMixed (XferFilter.incoming "0xme") 0 2499 (Except.ok []))
          "0xme"
    ∧ ∀ cb r logs log f, demoEnvMixed.blockNumber = Except.ok cb →
        r ∈ mkRanges (cb - SCAN_RANGE) cb →
        (f = XferFilter.incoming "0xme" ∨ f = XferFilter.outgoing "0xme") →
        demoEnvMixed.queryFilter f r.1 r.2 = Except.ok logs →
        log ∈ logs → log ∈ combinedLogs demoEnvMixed "0xme" cb :=
  C7_chunk_failure_tolerance demoEnvMixed "0xme"
    (XferFilter.incoming "0xme") 0 2499 "range failed" rfl

/-- C8: if the block-detail lookup for an event's block fails, the event's
Transaction still appears in the result (provided its raw value is nonzero,
since zero-value events are excluded), carrying the call-time clock value
`now` as its timestamp. -/
theorem C8_block_lookup_fallback (env : Chain) (address : String) (cb : Nat)
    (log : EventLog) (e : String)
    (hcb : env.blockNumber = Except.ok cb)
    (hmem : log ∈ uniqueLogs (combinedLogs env address cb))
    (hfail : env.getBlock log.blockNumber = Except.error e)
    (hpos : 0 < log.argValue) :
    toTransaction env address (blockMapOf env address cb) log
        ∈ getRecentTransactions env address
    ∧ (toTransaction env address (blockMapOf env address cb) log).timestamp
        = env.now := by
  have hts : (toTransaction env address (blockMapOf env address cb) log).timestamp
      = env.now := by
    rw [show (toTransaction env address (blockMapOf env address cb) log).timestamp
        = resolveTimestamp env (blockMapOf env address cb) log.blockNumber from rfl,
      blockMapOf]
    exact resolveTimestamp_fail hfail
  refine ⟨?_, hts⟩
  rw [getRecentTransactions_ok hcb]
  apply mem_pipelineTail.mpr
  refine ⟨⟨log, hmem, rfl⟩, ?_⟩
  rw [show (toTransaction env address (blockMapOf env address cb) log).amount
      = formatUnits log.argValue 6 from rfl]
  exact (parseDecQ_formatUnits_pos_iff _ _).mpr hpos

/-- C8 witness: in `demoEnvMixed` every block-detail lookup fails, and the
fetched event still appears, timestamped with `now`. -/
theorem C8_block_lookup_fallback_witness :
    toTransaction demoEnvMixed "0xme" (blockMapOf demoEnvMixed "0xme" 5000) logA
        ∈ getRecentTransactions demoEnvMixed "0xme"
    ∧ (toTransaction demoEnvMixed "0xme" (blockMapOf demoEnvMixed "0xme" 5000) logA).timestamp
        = demoEnvMixed.now :=
  C8_block_lookup_fallback demoEnvMixed "0xme" 5000 logA "block fetch failed"
    rfl (by decide) rfl (by decide)

/-- C9: the output is a deterministic function of the delivered per-sub-range
data — any two completion orders of the chunk results produce identical
output lists, equal to the canonical run. -/
theorem C9_completion_order_determinism (env : Chain) (address : String) (cb : Nat)
    (dIn dOut dIn' dOut' : List ((Nat × Nat) × List EventLog))
    (hcb : env.blockNumber = Except.ok cb)
    (h1 : dIn.Perm (deliveredOf env (XferFilter.incoming address) (cb - SCAN_RANGE) cb))
    (h2 : dOut.Perm (deliveredOf env (XferFilter.outgoing address) (cb - SCAN_RANGE) cb))
    (h3 : dIn'.Perm (deliveredOf env (XferFilter.incoming address) (cb - SCAN_RANGE) cb))
    (h4 : dOut'.Perm (deliveredOf env (XferFilter.outgoing address) (cb - SCAN_RANGE) cb)) :
    coreWithDelivered env address cb dIn dOut = coreWithDelivered env address cb dIn' dOut'
    ∧ coreWithDelivered env address cb dIn dOut = getRecentTransactions env address := by
  have heq : ∀ dI dO,
      dI.Perm (deliveredOf env (XferFilter.incoming address) (cb - SCAN_RANGE) cb) →
      dO.Perm (deliveredOf env (XferFilter.outgoing address) (cb - SCAN_RANGE) cb) →
      coreWithDelivered env address cb dI dO = getRecentTransactions env address := by
    intro dI dO hdI hdO
    rw [coreWithDelivered, assembleDelivered_of_perm hdI, assembleDelivered_of_perm hdO,
      getRecentTransactions_ok hcb, combinedLogs]
  exact ⟨(heq dIn dOut h1 h2).trans (heq dIn' dOut' h3 h4).symm, heq dIn dOut h1 h2⟩

/-- C9 witness: delivering the two chunk results of `demoEnvMixed` in
reversed completion order yields the same output as the canonical order. -/
theorem C9_completion_order_determinism_witness :
    coreWithDelivered demoEnvMixed "0xme" 5000
        (deliveredOf demoEnvMixed (XferFilter.incoming "0xme") (5000 - SCAN_RANGE) 5000).reverse
        (deliveredOf demoEnvMixed (XferFilter.outgoing "0xme") (5000 - SCAN_RANGE) 5000)
      = coreWithDelivered demoEnvMixed "0xme" 5000
          (deliveredOf demoEnvMixed (XferFilter.incoming "0xme") (5000 - SCAN_RANGE) 5000)
          (deliveredOf demoEnvMixed (XferFilter.outgoing "0xme") (5000 - SCAN_RANGE) 5000).reverse
    ∧ coreWithDelivered demoEnvMixed "0xme" 5000
        (deliveredOf demoEnvMixed (XferFilter.incoming "0xme") (5000 - SCAN_RANGE) 5000).reverse
        (deliveredOf demoEnvMixed (XferFilter.outgoing "0xme") (5000 - SCAN_RANGE) 5000)
      = getRecentTransactions demoEnvMixed "0xme" :=
  C9_completion_order_determinism demoEnvMixed "0xme" 5000 _ _ _ _ rfl
    (by decide) (by decide) (by decide) (by decide)

/-- C10: on a failing balance request each balance getter returns the string
"0.00" instead of raising. -/
theorem C10_balance_failure_zero (env : Chain) (address : String) (e1 e2 : String)
    (h1 : env.getBalance address = Except.error e1)
    (h2 : env.balanceOf address = Except.error e2) :
    getETHBalance env address = "0.00" ∧ getUSDCBalance env address = "0.00" := by
  constructor
  · rw [getETHBalance, h1]
  · rw [getUSDCBalance, h2]

/-- C10 witness: the theorem applied to the totally failing environment. -/
theorem C10_balance_failure_zero_witness :
    getETHBalance demoEnvFail "0xa" = "0.00" ∧ getUSDCBalance demoEnvFail "0xa" = "0.00" :=
  C10_balance_failure_zero demoEnvFail "0xa" "down" "down" rfl rfl
